import Mathlib

/-!
Formal model of the core of the MIET schedule parser
(`calendar_automation.py`): the `ScheduleEntry` record with its ordering
and alignment predicate, the in-place merge of consecutive double periods
(`merge_list_of_classes`), the class-name normalizer (`get_class_name`),
and the per-entry occurrence projection performed by `create_ics_file`.

Modelling conventions:
* Python strings are modelled as `List Char`; Python string comparison is
  the lexicographic order on code points, which is the `LinearOrder`
  instance on `List Char`.
* Python integers are modelled as `Int`.
* Dates are modelled as an integer count of days from a Monday epoch, so
  `datetime.weekday()` is `d % 7`; timestamps are minutes from the epoch
  (one day = 1440 minutes, `timedelta(hours=9)` = 540 minutes).
* Code that can raise (`IndexError` on out-of-range list access in
  `merge_list_of_classes`) returns `Option`: `none` models the fault.
* Python `list.sort()` is a stable ascending sort by `__lt__`; it is
  modelled by `List.insertionSort` with the total preorder
  `le a b := ¬ b < a`, which is also stable.
* `uuid4()` draws fresh randomness per event; the draw is modelled as an
  explicit `uid` input to the projection.
-/

/-- The `ScheduleEntry` class: fields in constructor order of
`ScheduleEntry.__init__`; `duration` starts at 1. -/
structure ScheduleEntry where
  class_name : List Char
  week_code : Int
  room_number : List Char
  week_day : Int
  slot_number : Int
  duration : Int := 1
deriving DecidableEq

/-- The comparison key of `ScheduleEntry.__eq__` / `__lt__`: the tuple
`(week_code, week_day, slot_number, room_number, class_name)`, compared
lexicographically (Python tuple comparison). -/
def ScheduleEntry.key (e : ScheduleEntry) :
    Lex (Int × Lex (Int × Lex (Int × Lex (List Char × List Char)))) :=
  toLex (e.week_code, toLex (e.week_day, toLex (e.slot_number,
    toLex (e.room_number, e.class_name))))

/-- `ScheduleEntry.__lt__`: lexicographic comparison of the five-field
tuples. -/
def ScheduleEntry.ltP (a b : ScheduleEntry) : Prop :=
  ScheduleEntry.key a < ScheduleEntry.key b

/-- `ScheduleEntry.__eq__`: equality of the five-field tuples
(`duration` is not part of the tuple). -/
def ScheduleEntry.eqP (a b : ScheduleEntry) : Prop :=
  (a.week_code, a.week_day, a.slot_number, a.room_number, a.class_name) =
  (b.week_code, b.week_day, b.slot_number, b.room_number, b.class_name)

/-- The total preorder `a ≤ b := ¬ b < a` used to model Python's stable
ascending sort by `__lt__`. -/
def ScheduleEntry.leP (a b : ScheduleEntry) : Prop :=
  ¬ ScheduleEntry.ltP b a

instance : DecidableRel ScheduleEntry.ltP :=
  fun a b => inferInstanceAs (Decidable (ScheduleEntry.key a < ScheduleEntry.key b))

instance : DecidableRel ScheduleEntry.leP :=
  fun a b => inferInstanceAs (Decidable (¬ ScheduleEntry.ltP b a))

instance : DecidableRel ScheduleEntry.eqP :=
  fun a b => inferInstanceAs (Decidable
    ((a.week_code, a.week_day, a.slot_number, a.room_number, a.class_name) =
     (b.week_code, b.week_day, b.slot_number, b.room_number, b.class_name)))

/-- `ScheduleEntry.is_aligned_class`: same class name, week code, week
day and room, and slot numbers differing by exactly one. -/
def ScheduleEntry.is_aligned_class (a b : ScheduleEntry) : Bool :=
  decide (a.class_name = b.class_name) &&
  decide (a.week_code = b.week_code) &&
  decide (a.week_day = b.week_day) &&
  decide (a.room_number = b.room_number) &&
  decide ((a.slot_number - b.slot_number).natAbs = 1)

/-- The in-place statement `class_list[i].duration += 1`. -/
def ScheduleEntry.bump (e : ScheduleEntry) : ScheduleEntry :=
  { e with duration := e.duration + 1 }

/-- `class_list.sort()`: stable ascending sort by `__lt__`. -/
def sortE (l : List ScheduleEntry) : List ScheduleEntry :=
  List.insertionSort ScheduleEntry.leP l

/-- The do-while loop of `merge_list_of_classes`.  One unfolding is one
iteration of the Python `while` body: it reads `class_list[i]` and
`class_list[i+1]` (a read out of range is an `IndexError`, modelled by
`none`), merges or advances, and then re-tests `i < list_len - 1`.  The
fuel argument is strictly larger than the number of iterations the loop
can make, so `none` is produced exactly by the out-of-range reads. -/
def mergeLoop : Nat → List ScheduleEntry → Nat → Option (List ScheduleEntry)
  | 0, _, _ => none
  | fuel + 1, l, i =>
    match l[i]?, l[i+1]? with
    | some a, some b =>
      if a.is_aligned_class b then
        let l2 := (l.set i a.bump).eraseIdx (i+1)
        if i < l2.length - 1 then mergeLoop fuel l2 i else some l2
      else
        if i + 1 < l.length - 1 then mergeLoop fuel l (i+1) else some l
    | _, _ => none

/-- `merge_list_of_classes`: sort, then run the merge loop from `i = 0`.
The loop body runs at least once, so lists of length 0 or 1 fault. -/
def merge_list_of_classes (class_list : List ScheduleEntry) :
    Option (List ScheduleEntry) :=
  let sorted := sortE class_list
  mergeLoop (sorted.length + 1) sorted 0

/-- Recursive form of the merge pass, used to reason about `mergeLoop`:
at the cursor, either merge the head pair (and re-examine the merged
entry against its new neighbour) or emit the head and advance.  The
bridge `mergeLoop fuel l i = some (l.take i ++ mergeAdj (l.drop i))` is
proved below. -/
def mergeAdj : List ScheduleEntry → List ScheduleEntry
  | [] => []
  | [a] => [a]
  | a :: b :: rest =>
    if a.is_aligned_class b then mergeAdj (a.bump :: rest)
    else a :: mergeAdj (b :: rest)
termination_by l => l.length
decreasing_by
  · simp
  · simp

/-- Python `" [" in name`: the string contains a space immediately
followed by an opening bracket. -/
def containsBr : List Char → Bool
  | [] => false
  | [_] => false
  | c1 :: c2 :: rest => (c1 = ' ' && c2 = '[') || containsBr (c2 :: rest)

/-- Python `name.split(" [")`: split on every non-overlapping occurrence
of the two-character separator `" ["`, scanning left to right. -/
def splitBr : List Char → List (List Char)
  | [] => [[]]
  | [c] => [[c]]
  | c1 :: c2 :: rest =>
    if c1 = ' ' ∧ c2 = '[' then [] :: splitBr rest
    else match splitBr (c2 :: rest) with
         | [] => [[c1]]
         | h :: t => (c1 :: h) :: t

/-- Whether `pat` is an initial segment of `s` (the occurrence test of
Python `str.replace`). -/
def leadsWith : List Char → List Char → Bool
  | [], _ => true
  | _ :: _, [] => false
  | p :: ps, c :: cs => p = c && leadsWith ps cs

/-- Python `s.replace(pat, "")` for a non-empty `pat`: remove every
non-overlapping occurrence, scanning left to right.  The fuel is the
length of the scanned string, which bounds the number of steps. -/
def removeAllF (pat : List Char) : Nat → List Char → List Char
  | _, [] => []
  | 0, s => s
  | fuel + 1, c :: rest =>
    if leadsWith pat (c :: rest) then
      removeAllF pat fuel (List.drop (pat.length - 1) rest)
    else c :: removeAllF pat fuel rest

def removeAll (pat s : List Char) : List Char := removeAllF pat s.length s

/-- Python `long_name in class_names_cast` / `class_names_cast[long_name]`:
the rename table is an association list with the first matching key
winning (keys of a Python dict are unique). -/
def lookupCast : List (List Char × List Char) → List Char → Option (List Char)
  | [], _ => none
  | (k, v) :: rest, s => if k = s then some v else lookupCast rest s

/-- Lines 139-142 of the source: replace the base name by its alias when
it is a key of the rename table, otherwise keep it. -/
def applyCast (cast : List (List Char × List Char)) (s : List Char) : List Char :=
  match lookupCast cast s with
  | some v => v
  | none => s

/-- `get_class_name`: split off the `" [<type>]"` suffix when `" ["`
occurs in the name (the suffix is `" [" + name.split(" [")[1]`, and the
base is the name with every occurrence of that suffix removed), apply the
rename table to the base, and re-append the suffix. -/
def get_class_name (cast : List (List Char × List Char)) (name : List Char) :
    List Char :=
  if containsBr name then
    let class_type := ' ' :: '[' :: ((splitBr name).getD 1 [])
    let long_name := removeAll class_type name
    applyCast cast long_name ++ class_type
  else
    applyCast cast name

/-- The timing configuration consumed by `create_ics_file`. -/
structure Config where
  academic_hour_duration : Int
  short_recreation_duration : Int
  long_recreation_duration : Int
  repeat_number : Int
deriving DecidableEq

/-- `datetime.weekday()` for a date given as days from a Monday epoch
(0 = Monday .. 6 = Sunday). -/
def weekday (d : Int) : Int := d % 7

/-- Lines 244-255 of the source: the date (in days) of the first
occurrence of an entry, from the semester start date. -/
def first_class_date (start_date : Int) (e : ScheduleEntry) : Int :=
  let first_day_of_semester := weekday start_date
  if e.week_day < first_day_of_semester ∧ e.week_code = 0 then
    let week_offset := (e.week_code + 4) * 7
    let day_offset := e.week_day - first_day_of_semester - 1
    start_date + (week_offset + day_offset)
  else
    let week_offset := e.week_code * 7
    let day_offset := e.week_day - first_day_of_semester
    start_date + (week_offset + day_offset)

/-- Line 237: `pair_duration = academic_hour_duration * 2`. -/
def pair_duration (cfg : Config) : Int := cfg.academic_hour_duration * 2

/-- Line 242: duration of the whole class in minutes. -/
def class_duration (cfg : Config) (e : ScheduleEntry) : Int :=
  e.duration * pair_duration cfg + (e.duration - 1) * cfg.short_recreation_duration

/-- Lines 261-266: start timestamp in minutes from the epoch: 09:00 on
the first-occurrence date, plus the per-slot offset with the literal
10-minute break, plus the long-break adjustment after the second slot. -/
def start_time (cfg : Config) (start_date : Int) (e : ScheduleEntry) : Int :=
  let st := first_class_date start_date e * 1440 + 9 * 60
  let st := st + e.slot_number * (pair_duration cfg + 10)
  if e.slot_number > 2 then
    st + (cfg.long_recreation_duration - cfg.short_recreation_duration)
  else st

/-- Line 269: `end_time = start_time + timedelta(minutes=class_duration)`. -/
def end_time (cfg : Config) (start_date : Int) (e : ScheduleEntry) : Int :=
  start_time cfg start_date e + class_duration cfg e

/-- The event record built in lines 272-280: summary, start/end
timestamps, location, uid, and the recurrence rule
`{freq: weekly, interval: 4, count: repeat_number}`. -/
structure Occurrence where
  summary : List Char
  dtstart : Int
  dtend : Int
  location : List Char
  uid : Nat
  rrule_freq : List Char
  rrule_interval : Int
  rrule_count : Int
deriving DecidableEq

/-- The per-entry body of the loop in `create_ics_file`.  `uid` is the
value drawn from `uuid4()` for this event, made an explicit input. -/
def project_entry (cfg : Config) (start_date : Int) (uid : Nat)
    (e : ScheduleEntry) : Occurrence :=
  { summary := e.class_name
    dtstart := start_time cfg start_date e
    dtend := end_time cfg start_date e
    location := e.room_number
    uid := uid
    rrule_freq := "weekly".data
    rrule_interval := 4
    rrule_count := cfg.repeat_number }

/-- The whole loop of `create_ics_file`: one `Occurrence` per schedule
entry, each with its own `uuid4()` draw (`uids n` is the draw for the
`n`-th event). -/
def create_ics_events (cfg : Config) (start_date : Int) (uids : Nat → Nat)
    (schedule : List ScheduleEntry) : List Occurrence :=
  schedule.enum.map (fun p => project_entry cfg start_date (uids p.1) p.2)

/-- Modelled from the spec wording of C3: the first-occurrence date
formula, with `week_offset`/`day_offset` as the spec names them. -/
def firstOccurrenceDate_specFormula (start_date : Int) (e : ScheduleEntry) : Int :=
  let first_weekday := weekday start_date
  if e.week_day < first_weekday ∧ e.week_code = 0 then
    start_date + ((e.week_code + 4) * 7 + (e.week_day - first_weekday - 1))
  else
    start_date + (e.week_code * 7 + (e.week_day - first_weekday))

/-- Modelled from the spec wording of C4: minutes past the 09:00 anchor
for a slot: `slot_number * (2*academic_hour_duration + 10)`, plus
`long_recreation_duration - short_recreation_duration` when
`slot_number > 2`. -/
def slotOffset_specFormula (cfg : Config) (e : ScheduleEntry) : Int :=
  e.slot_number * (2 * cfg.academic_hour_duration + 10) +
    (if e.slot_number > 2 then
      cfg.long_recreation_duration - cfg.short_recreation_duration
    else 0)

/-- Modelled from the spec wording of C5: event duration in minutes. -/
def eventDuration_specFormula (cfg : Config) (e : ScheduleEntry) : Int :=
  e.duration * (2 * cfg.academic_hour_duration) +
    (e.duration - 1) * cfg.short_recreation_duration

/-- Entry constructor in the argument order of `ScheduleEntry.__init__`. -/
def mkE (cl : List Char) (wc : Int) (rm : List Char) (wd slot : Int) :
    ScheduleEntry :=
  { class_name := cl, week_code := wc, room_number := rm, week_day := wd,
    slot_number := slot }

/-- Three entries identical except for adjacent slot numbers 0, 1, 2. -/
def tA0 : ScheduleEntry := mkE "A".data 0 "1".data 0 0

def tA1 : ScheduleEntry := mkE "A".data 0 "1".data 0 1

def tA2 : ScheduleEntry := mkE "A".data 0 "1".data 0 2

/-- An entry in slot 3 (after the long break). -/
def tS3 : ScheduleEntry := mkE "A".data 0 "1".data 0 3

/-- The configured timings of the source: 40-minute academic hour,
10-minute short break, 40-minute long break, 5 repetitions. -/
def cfg40 : Config :=
  { academic_hour_duration := 40, short_recreation_duration := 10,
    long_recreation_duration := 40, repeat_number := 5 }

/-- The rename table of the worked example. -/
def castEx : List (List Char × List Char) :=
  [("Микропроцессорные средства и системы".data, "МПСиС".data)]

/-- The five fields that `__eq__`, `__lt__` and `is_aligned_class` read
agree (only `duration` may differ). -/
def sameFields (a b : ScheduleEntry) : Prop :=
  a.class_name = b.class_name ∧ a.week_code = b.week_code ∧
  a.room_number = b.room_number ∧ a.week_day = b.week_day ∧
  a.slot_number = b.slot_number

theorem sameFields_refl (a : ScheduleEntry) : sameFields a a :=
  ⟨rfl, rfl, rfl, rfl, rfl⟩

theorem sameFields_trans {a b c : ScheduleEntry}
    (h1 : sameFields a b) (h2 : sameFields b c) : sameFields a c := by
  obtain ⟨x1, x2, x3, x4, x5⟩ := h1
  obtain ⟨y1, y2, y3, y4, y5⟩ := h2
  exact ⟨x1.trans y1, x2.trans y2, x3.trans y3, x4.trans y4, x5.trans y5⟩

theorem sameFields_bump (a : ScheduleEntry) : sameFields a a.bump :=
  ⟨rfl, rfl, rfl, rfl, rfl⟩

theorem key_bump (a : ScheduleEntry) : a.bump.key = a.key := rfl

theorem sameFields_key {a b : ScheduleEntry} (h : sameFields a b) :
    a.key = b.key := by
  obtain ⟨h1, h2, h3, h4, h5⟩ := h
  unfold ScheduleEntry.key
  rw [h1, h2, h3, h4, h5]

theorem ScheduleEntry.leP_iff (a b : ScheduleEntry) :
    a.leP b ↔ a.key ≤ b.key := by
  unfold ScheduleEntry.leP ScheduleEntry.ltP
  exact not_lt

instance : IsTotal ScheduleEntry ScheduleEntry.leP :=
  ⟨fun a b => by
    rw [ScheduleEntry.leP_iff, ScheduleEntry.leP_iff]
    exact le_total _ _⟩

instance : IsTrans ScheduleEntry ScheduleEntry.leP :=
  ⟨fun a b c hab hbc => by
    rw [ScheduleEntry.leP_iff] at *
    exact le_trans hab hbc⟩

theorem leP_congr_left {a a2 : ScheduleEntry} (h : sameFields a a2)
    (b : ScheduleEntry) : a.leP b ↔ a2.leP b := by
  rw [ScheduleEntry.leP_iff, ScheduleEntry.leP_iff, sameFields_key h]

theorem leP_congr_right {b b2 : ScheduleEntry} (h : sameFields b b2)
    (a : ScheduleEntry) : a.leP b ↔ a.leP b2 := by
  rw [ScheduleEntry.leP_iff, ScheduleEntry.leP_iff, sameFields_key h]

theorem key_eq_iff_eqP (a b : ScheduleEntry) : a.key = b.key ↔ a.eqP b := by
  unfold ScheduleEntry.key ScheduleEntry.eqP
  simp only [toLex_inj, Prod.mk.injEq]

theorem aligned_congr_right {b b2 : ScheduleEntry} (h : sameFields b b2)
    (a : ScheduleEntry) : a.is_aligned_class b = a.is_aligned_class b2 := by
  obtain ⟨h1, h2, h3, h4, h5⟩ := h
  unfold ScheduleEntry.is_aligned_class
  rw [h1, h2, h3, h4, h5]

theorem aligned_bump_left (a b : ScheduleEntry) :
    a.bump.is_aligned_class b = a.is_aligned_class b := rfl

theorem containsBr_append_br (base t : List Char) :
    containsBr (base ++ ' ' :: '[' :: t) = true := by
  induction base with
  | nil => simp [containsBr]
  | cons b bs ih =>
    cases bs with
    | nil => simp [containsBr]
    | cons b2 bs2 => simpa [containsBr] using Or.inr ih

theorem containsBr_eq_false {s : List Char} (h : '[' ∉ s) :
    containsBr s = false := by
  induction s with
  | nil => rfl
  | cons c cs ih =>
    cases cs with
    | nil => rfl
    | cons c2 cs2 =>
      have h2 : '[' ∉ c2 :: cs2 := fun hm => h (List.mem_cons_of_mem _ hm)
      have hne : c2 ≠ '[' := fun he => h (by simp [he])
      have := ih h2
      simp only [containsBr] at this ⊢
      simp [this, hne, fun he : c2 = '[' => hne he]

theorem splitBr_no {s : List Char} (h : '[' ∉ s) : splitBr s = [s] := by
  induction s with
  | nil => rfl
  | cons c cs ih =>
    cases cs with
    | nil => rfl
    | cons c2 cs2 =>
      have h2 : '[' ∉ c2 :: cs2 := fun hm => h (List.mem_cons_of_mem _ hm)
      have hne : ¬ (c = ' ' ∧ c2 = '[') := fun hp => h (by simp [hp.2])
      rw [splitBr, if_neg hne, ih h2]

theorem splitBr_append {base t : List Char} (hb : '[' ∉ base) (ht : '[' ∉ t) :
    splitBr (base ++ ' ' :: '[' :: t) = [base, t] := by
  induction base with
  | nil =>
    show splitBr (' ' :: '[' :: t) = [[], t]
    rw [splitBr, if_pos ⟨rfl, rfl⟩, splitBr_no ht]
  | cons b bs ih =>
    have hbs : '[' ∉ bs := fun hm => hb (List.mem_cons_of_mem _ hm)
    cases bs with
    | nil =>
      show splitBr (b :: ' ' :: '[' :: t) = [[b], t]
      have hne : ¬ (b = ' ' ∧ ' ' = '[') := fun hp => by
        exact absurd hp.2 (by decide)
      rw [splitBr, if_neg hne]
      have : splitBr (' ' :: '[' :: t) = [[], t] := by
        rw [splitBr, if_pos ⟨rfl, rfl⟩, splitBr_no ht]
      rw [this]
    | cons b2 bs2 =>
      have hne : ¬ (b = ' ' ∧ b2 = '[') := fun hp => hb (by simp [hp.2])
      show splitBr (b :: b2 :: (bs2 ++ ' ' :: '[' :: t)) = [b :: b2 :: bs2, t]
      rw [splitBr, if_neg hne]
      have ih2 := ih hbs
      rw [show (b2 :: bs2) ++ ' ' :: '[' :: t = b2 :: (bs2 ++ ' ' :: '[' :: t)
        from rfl] at ih2
      rw [ih2]

theorem leadsWith_append_self (p s : List Char) : leadsWith p (p ++ s) = true := by
  induction p with
  | nil => rfl
  | cons c cs ih => simp [leadsWith, ih]

theorem removeAllF_base {base t : List Char} (hb : '[' ∉ base) :
    ∀ fuel, (base ++ ' ' :: '[' :: t).length ≤ fuel →
      removeAllF (' ' :: '[' :: t) fuel (base ++ ' ' :: '[' :: t) = base := by
  induction base with
  | nil =>
    intro fuel hf
    cases fuel with
    | zero => simp at hf
    | succ f =>
      show removeAllF (' ' :: '[' :: t) (f + 1) (' ' :: '[' :: t) = []
      have hlead : leadsWith (' ' :: '[' :: t) (' ' :: '[' :: t) = true := by
        have := leadsWith_append_self (' ' :: '[' :: t) []
        rwa [List.append_nil] at this
      rw [removeAllF, if_pos hlead]
      have hdrop : List.drop ((' ' :: '[' :: t).length - 1) ('[' :: t) = [] :=
        List.drop_eq_nil_of_le (by simp)
      rw [hdrop]
      cases f <;> rfl
  | cons b bs ih =>
    intro fuel hf
    cases fuel with
    | zero => simp at hf
    | succ f =>
      show removeAllF (' ' :: '[' :: t) (f + 1) (b :: (bs ++ ' ' :: '[' :: t)) =
        b :: bs
      have hbs : '[' ∉ bs := fun hm => hb (List.mem_cons_of_mem _ hm)
      have hlead : leadsWith (' ' :: '[' :: t) (b :: (bs ++ ' ' :: '[' :: t)) =
          false := by
        cases bs with
        | nil => simp [leadsWith]
        | cons b2 bs2 =>
          have hne : b2 ≠ '[' := fun he => hb (by simp [he])
          simp [leadsWith, Ne.symm hne]
      rw [removeAllF, if_neg (by simp [hlead])]
      rw [ih hbs f (by simpa using Nat.le_of_succ_le_succ (by simpa using hf))]

theorem removeAll_base {base t : List Char} (hb : '[' ∉ base) :
    removeAll (' ' :: '[' :: t) (base ++ ' ' :: '[' :: t) = base :=
  removeAllF_base hb _ le_rfl

/-- C1: refuted on the code.  Three entries identical in
`class_name`/`week_code`/`week_day`/`room_number` with `slot_number`
0, 1, 2 do NOT merge into a single entry of duration 3:
`merge_list_of_classes` returns two entries, the first two collapsed
into one entry of duration 2 anchored at slot 0, and the slot-2 entry
untouched (after merging, `is_aligned_class` keeps comparing the
anchor's original `slot_number`, so the third entry is never absorbed). -/
theorem claim_C1_triple_merge_eval :
    merge_list_of_classes [tA0, tA1, tA2] = some [tA0.bump, tA2] ∧
    [ScheduleEntry.bump tA0, tA2].length = 2 ∧ tA0.bump.duration = 2 :=
  ⟨by decide, rfl, by decide⟩

/-- C2: on an empty input list `merge_list_of_classes` does not return
normally: the first loop iteration reads `class_list[0]`, which is out
of range (`none` models the `IndexError`). -/
theorem claim_C2_empty_input_faults : merge_list_of_classes [] = none := rfl

/-- C10: on every one-element input list `merge_list_of_classes` raises
an index fault: the do-while body runs before the continuation test and
reads `class_list[1]`, which is out of range. -/
theorem claim_C10_singleton_input_faults :
    ∀ e : ScheduleEntry, merge_list_of_classes [e] = none := fun _ => rfl

/-- C6: `get_class_name` splits off a bracketed `" [<type>]"` suffix when
present, applies the rename table to the remaining base name only, and
re-appends the suffix unaltered; a title without bracketed suffix and
without a rename-table match passes through unchanged; and the worked
example with the long Cyrillic title rewrites to the abbreviation while
keeping the `" [Лаб]"` suffix. -/
theorem claim_C6_name_normalizer :
    (∀ (cast : List (List Char × List Char)) (base t : List Char),
        '[' ∉ base → '[' ∉ t →
        get_class_name cast (base ++ ' ' :: '[' :: t) =
          applyCast cast base ++ ' ' :: '[' :: t) ∧
    (∀ (cast : List (List Char × List Char)) (name : List Char),
        containsBr name = false → lookupCast cast name = none →
        get_class_name cast name = name) ∧
    get_class_name castEx "Микропроцессорные средства и системы [Лаб]".data =
      "МПСиС [Лаб]".data := by
  refine ⟨?_, ?_, by decide⟩
  · intro cast base t hb ht
    unfold get_class_name
    rw [if_pos (by simp [containsBr_append_br base t])]
    rw [splitBr_append hb ht]
    show applyCast cast
        (removeAll (' ' :: '[' :: [base, t].getD 1 []) (base ++ ' ' :: '[' :: t))
        ++ (' ' :: '[' :: [base, t].getD 1 []) = _
    simp only [List.getD_cons_succ, List.getD_cons_zero]
    rw [removeAll_base hb]
  · intro cast name hnc hlk
    unfold get_class_name
    rw [if_neg (by simp [hnc])]
    simp [applyCast, hlk]

/-- Witness for C6: the general bracket-suffix clause applied at the
worked example's title, with both hypotheses discharged concretely. -/
theorem claim_C6_name_normalizer_witness :
    '[' ∉ "Микропроцессорные средства и системы".data ∧
    '[' ∉ "Лаб]".data ∧
    get_class_name castEx
        ("Микропроцессорные средства и системы".data ++ ' ' :: '[' :: "Лаб]".data) =
      applyCast castEx "Микропроцессорные средства и системы".data ++
        ' ' :: '[' :: "Лаб]".data :=
  ⟨by decide, by decide,
    claim_C6_name_normalizer.1 castEx "Микропроцессорные средства и системы".data
      "Лаб]".data (by decide) (by decide)⟩

/-- C7: the comparison on `ScheduleEntry` is the lexicographic order on
`(week_code, week_day, slot_number, room_number, class_name)`; it is
transitive and asymmetric (a strict total order); equality is over the
same five fields, so two entries differing only in `duration` are equal;
comparison and equality are trichotomous; and sorting is idempotent. -/
theorem claim_C7_total_order :
    (∀ a b : ScheduleEntry, a.ltP b ↔
      (a.week_code < b.week_code ∨ (a.week_code = b.week_code ∧
        (a.week_day < b.week_day ∨ (a.week_day = b.week_day ∧
          (a.slot_number < b.slot_number ∨ (a.slot_number = b.slot_number ∧
            (a.room_number < b.room_number ∨ (a.room_number = b.room_number ∧
              a.class_name < b.class_name))))))))) ∧
    (∀ a b c : ScheduleEntry, a.ltP b → b.ltP c → a.ltP c) ∧
    (∀ a b : ScheduleEntry, a.ltP b → ¬ b.ltP a) ∧
    (∀ (a : ScheduleEntry) (d : Int), a.eqP { a with duration := d }) ∧
    (∀ a b : ScheduleEntry, a.ltP b ∨ a.eqP b ∨ b.ltP a) ∧
    (∀ l : List ScheduleEntry, sortE (sortE l) = sortE l) := by
  refine ⟨?_, ?_, ?_, ?_, ?_, ?_⟩
  · intro a b
    unfold ScheduleEntry.ltP ScheduleEntry.key
    simp [Prod.Lex.lt_iff]
  · intro a b c h1 h2
    exact lt_trans (a := ScheduleEntry.key a) h1 h2
  · intro a b h
    exact lt_asymm (a := ScheduleEntry.key a) h
  · intro a d
    rfl
  · intro a b
    rcases lt_trichotomy a.key b.key with h | h | h
    · exact Or.inl h
    · exact Or.inr (Or.inl ((key_eq_iff_eqP a b).mp h))
    · exact Or.inr (Or.inr h)
  · intro l
    exact List.Sorted.insertionSort_eq
      (List.sorted_insertionSort ScheduleEntry.leP l)

/-- Witness for C7: transitivity applied at the three concrete entries
with slots 0, 1, 2. -/
theorem claim_C7_total_order_witness :
    ScheduleEntry.ltP tA0 tA1 ∧ ScheduleEntry.ltP tA1 tA2 ∧
    ScheduleEntry.ltP tA0 tA2 :=
  ⟨by decide, by decide,
    claim_C7_total_order.2.1 tA0 tA1 tA2 (by decide) (by decide)⟩

/-- C3: the projector's first-occurrence date is exactly the spec's
formula (wrap to the next cycle iteration when the target weekday
precedes the semester's first weekday in cycle phase 0, otherwise the
plain `week_code*7 + (week_day - first_weekday)` offset); in the
cycle-wrap example (semester starts on a Wednesday, entry on Monday of
phase 0) the first occurrence lands `(0+4)*7 + (0-2-1) = 25` days after
the semester start, not in the first week. -/
theorem claim_C3_first_occurrence_date :
    (∀ (d : Int) (e : ScheduleEntry),
        first_class_date d e = firstOccurrenceDate_specFormula d e) ∧
    (∀ (d : Int) (e : ScheduleEntry), weekday d = 2 → e.week_day = 0 →
        e.week_code = 0 → first_class_date d e = d + 25) := by
  constructor
  · intro d e
    rfl
  · intro d e hw hd hc
    unfold first_class_date
    rw [hw, hd, hc]
    norm_num

/-- Witness for C3: the cycle-wrap clause at the concrete Wednesday
start date `d = 2` and the Monday slot-0 entry. -/
theorem claim_C3_first_occurrence_date_witness :
    weekday 2 = 2 ∧ first_class_date 2 tA0 = 2 + 25 :=
  ⟨by decide, claim_C3_first_occurrence_date.2 2 tA0 (by decide) rfl rfl⟩

/-- C4: the occurrence start time is 09:00 on the first-occurrence date
plus `slot_number * (2*academic_hour_duration + 10)` minutes (the
10-minute cadence is a literal, independent of the configured short
break), plus `long_recreation_duration - short_recreation_duration`
exactly when `slot_number > 2`; with the configured 40/10/40 timings and
slot 3 the offset past 09:00 is `3*(80+10) + 30` minutes. -/
theorem claim_C4_slot_offset :
    (∀ (cfg : Config) (d : Int) (e : ScheduleEntry),
        start_time cfg d e =
          first_class_date d e * 1440 + 9 * 60 + slotOffset_specFormula cfg e) ∧
    (∀ (d : Int) (e : ScheduleEntry), e.slot_number = 3 →
        start_time cfg40 d e =
          first_class_date d e * 1440 + 9 * 60 + (3 * (80 + 10) + 30)) := by
  have hgen : ∀ (cfg : Config) (d : Int) (e : ScheduleEntry),
      start_time cfg d e =
        first_class_date d e * 1440 + 9 * 60 + slotOffset_specFormula cfg e := by
    intro cfg d e
    unfold start_time slotOffset_specFormula pair_duration
    split_ifs with h <;> ring
  refine ⟨hgen, ?_⟩
  intro d e h3
  rw [hgen]
  unfold slotOffset_specFormula
  rw [h3]
  norm_num [cfg40]

/-- Witness for C4: the slot-3 clause at a concrete entry. -/
theorem claim_C4_slot_offset_witness :
    start_time cfg40 0 tS3 =
      first_class_date 0 tS3 * 1440 + 9 * 60 + (3 * (80 + 10) + 30) :=
  claim_C4_slot_offset.2 0 tS3 rfl

/-- C5: the occurrence's event duration in minutes is
`duration * (2*academic_hour_duration) + (duration - 1) *
short_recreation_duration` and `dtend = dtstart + duration`; with the
40/10/40 timings, a slot-0 duration-1 entry on the semester's first day
starts at 09:00 and ends at 10:20 (80 minutes). -/
theorem claim_C5_event_duration :
    (∀ (cfg : Config) (d : Int) (uid : Nat) (e : ScheduleEntry),
        (project_entry cfg d uid e).dtend =
          (project_entry cfg d uid e).dtstart + eventDuration_specFormula cfg e) ∧
    (project_entry cfg40 0 0 tA0).dtstart = 9 * 60 ∧
    (project_entry cfg40 0 0 tA0).dtend = 10 * 60 + 20 := by
  refine ⟨?_, by decide, by decide⟩
  intro cfg d uid e
  show end_time cfg d e = start_time cfg d e + _
  unfold end_time class_duration pair_duration eventDuration_specFormula
  ring

/-- C9 (amended): with the `uuid4()` draw made an explicit input, the
projection is a pure function; two runs with possibly different draws
agree on every field except `uid`. -/
theorem claim_C9_pure_up_to_uid :
    ∀ (cfg : Config) (d : Int) (e : ScheduleEntry) (u1 u2 : Nat),
      (project_entry cfg d u1 e).summary = (project_entry cfg d u2 e).summary ∧
      (project_entry cfg d u1 e).dtstart = (project_entry cfg d u2 e).dtstart ∧
      (project_entry cfg d u1 e).dtend = (project_entry cfg d u2 e).dtend ∧
      (project_entry cfg d u1 e).location = (project_entry cfg d u2 e).location ∧
      (project_entry cfg d u1 e).rrule_freq = (project_entry cfg d u2 e).rrule_freq ∧
      (project_entry cfg d u1 e).rrule_interval =
        (project_entry cfg d u2 e).rrule_interval ∧
      (project_entry cfg d u1 e).rrule_count = (project_entry cfg d u2 e).rrule_count :=
  fun _ _ _ _ _ => ⟨rfl, rfl, rfl, rfl, rfl, rfl, rfl⟩

/-- C9 counterexample: the claim as stated (two runs on the same entry
and configuration produce identical records including all fields) fails,
because each run attaches a fresh `uuid4()` value: with two different
draws the records differ. -/
theorem claim_C9_counterexample :
    project_entry cfg40 0 0 tA0 ≠ project_entry cfg40 0 1 tA0 := by decide

theorem mergeAdj_nil : mergeAdj [] = [] := by
  simp [mergeAdj]

theorem mergeAdj_single (a : ScheduleEntry) : mergeAdj [a] = [a] := by
  simp [mergeAdj]

theorem mergeAdj_cons2 (a b : ScheduleEntry) (rest : List ScheduleEntry) :
    mergeAdj (a :: b :: rest) =
      if a.is_aligned_class b then mergeAdj (a.bump :: rest)
      else a :: mergeAdj (b :: rest) := by
  rw [mergeAdj]

theorem set_eraseIdx_split {α : Type} :
    ∀ (l : List α) (i : Nat) (x : α), i < l.length →
      (l.set i x).eraseIdx (i+1) = l.take i ++ x :: l.drop (i+2) := by
  intro l
  induction l with
  | nil => intro i x h; simp at h
  | cons c t ih =>
    intro i x h
    cases i with
    | zero => cases t <;> simp
    | succ j =>
      have h2 : j < t.length := by simpa using Nat.lt_of_succ_lt_succ h
      simp [ih j x h2]

theorem mergeLoop_eq_mergeAdj :
    ∀ (fuel : Nat) (l : List ScheduleEntry) (i : Nat),
      i + 1 < l.length → l.length - i ≤ fuel →
      mergeLoop fuel l i = some (l.take i ++ mergeAdj (l.drop i)) := by
  intro fuel
  induction fuel with
  | zero => intro l i h1 h2; omega
  | succ f ih =>
    intro l i h1 h2
    have hi : i < l.length := by omega
    have ha : l[i]? = some l[i] := List.getElem?_eq_getElem hi
    have hb : l[i+1]? = some l[i+1] := List.getElem?_eq_getElem h1
    have hdrop : l.drop i = l[i] :: l[i+1] :: l.drop (i+2) := by
      rw [List.drop_eq_getElem_cons hi, List.drop_eq_getElem_cons h1]
    have htklen : (l.take i).length = i := by simp [List.length_take]; omega
    simp only [mergeLoop, ha, hb]
    by_cases hal : l[i].is_aligned_class l[i+1] = true
    · rw [if_pos hal]
      have hl2 : (l.set i l[i].bump).eraseIdx (i+1) =
          l.take i ++ l[i].bump :: l.drop (i+2) := set_eraseIdx_split l i _ hi
      have hlen2 : ((l.set i l[i].bump).eraseIdx (i+1)).length = l.length - 1 := by
        rw [List.length_eraseIdx]
        simp [List.length_set, h1]
      by_cases hg : i < ((l.set i l[i].bump).eraseIdx (i+1)).length - 1
      · rw [if_pos hg, ih _ i (by omega) (by omega)]
        have htk : ((l.set i l[i].bump).eraseIdx (i+1)).take i = l.take i := by
          rw [hl2]; exact List.take_left' htklen
        have hdr : ((l.set i l[i].bump).eraseIdx (i+1)).drop i =
            l[i].bump :: l.drop (i+2) := by
          rw [hl2]; exact List.drop_left' htklen
        rw [htk, hdr, hdrop, mergeAdj_cons2, if_pos hal]
      · rw [if_neg hg]
        have hdrop2 : l.drop (i+2) = [] := List.drop_eq_nil_of_le (by omega)
        rw [hl2, hdrop, hdrop2, mergeAdj_cons2, if_pos hal, mergeAdj_single]
    · rw [if_neg hal]
      by_cases hg : i + 1 < l.length - 1
      · rw [if_pos hg, ih l (i+1) (by omega) (by omega)]
        have htk1 : l.take (i+1) = l.take i ++ [l[i]] := by
          rw [List.take_succ]
          simp [ha]
        have hdr1 : l.drop (i+1) = l[i+1] :: l.drop (i+2) :=
          List.drop_eq_getElem_cons h1
        rw [hdrop, mergeAdj_cons2, if_neg hal, htk1, hdr1]
        rw [List.append_assoc]
        rfl
      · rw [if_neg hg]
        have hdrop2 : l.drop (i+2) = [] := List.drop_eq_nil_of_le (by omega)
        conv_lhs => rw [← List.take_append_drop i l]
        rw [hdrop, hdrop2, mergeAdj_cons2, if_neg hal, mergeAdj_single]

theorem length_sortE (l : List ScheduleEntry) : (sortE l).length = l.length :=
  (List.perm_insertionSort ScheduleEntry.leP l).length_eq

theorem merge_eq_mergeAdj {l : List ScheduleEntry} (h : 2 ≤ l.length) :
    merge_list_of_classes l = some (mergeAdj (sortE l)) := by
  have hlen := length_sortE l
  show mergeLoop ((sortE l).length + 1) (sortE l) 0 = _
  rw [mergeLoop_eq_mergeAdj ((sortE l).length + 1) (sortE l) 0 (by omega) (by omega)]
  simp

theorem merge_small_none {l : List ScheduleEntry} (h : l.length ≤ 1) :
    merge_list_of_classes l = none := by
  have hlen := length_sortE l
  suffices h2 : ∀ s : List ScheduleEntry, s.length ≤ 1 →
      mergeLoop (s.length + 1) s 0 = none by
    exact h2 (sortE l) (by omega)
  intro s hs
  match s, hs with
  | [], _ => rfl
  | [a], _ => rfl

theorem mergeAdj_mem : ∀ (n : Nat) (l : List ScheduleEntry), l.length ≤ n →
    ∀ x ∈ mergeAdj l, ∃ y ∈ l, sameFields y x := by
  intro n
  induction n with
  | zero =>
    intro l hl x hx
    have : l = [] := List.eq_nil_of_length_eq_zero (by omega)
    subst this
    simp [mergeAdj_nil] at hx
  | succ n ih =>
    intro l hl x hx
    rcases l with _ | ⟨a, _ | ⟨b, rest⟩⟩
    · simp [mergeAdj_nil] at hx
    · rw [mergeAdj_single] at hx
      simp at hx
      exact ⟨a, by simp, hx ▸ sameFields_refl a⟩
    · rw [mergeAdj_cons2] at hx
      by_cases hal : a.is_aligned_class b = true
      · rw [if_pos hal] at hx
        obtain ⟨y, hy, hsf⟩ := ih (a.bump :: rest) (by simp at hl ⊢; omega) x hx
        rcases List.mem_cons.mp hy with hy1 | hy2
        · subst hy1
          exact ⟨a, by simp, sameFields_trans (sameFields_bump a) hsf⟩
        · exact ⟨y, by simp [hy2], hsf⟩
      · rw [if_neg hal] at hx
        rcases List.mem_cons.mp hx with hx1 | hx2
        · subst hx1
          exact ⟨x, by simp, sameFields_refl x⟩
        · obtain ⟨y, hy, hsf⟩ := ih (b :: rest) (by simp at hl ⊢; omega) x hx2
          refine ⟨y, ?_, hsf⟩
          rcases List.mem_cons.mp hy with hy1 | hy2
          · subst hy1; simp
          · simp [hy2]

theorem mergeAdj_pairwise : ∀ (n : Nat) (l : List ScheduleEntry), l.length ≤ n →
    l.Pairwise ScheduleEntry.leP → (mergeAdj l).Pairwise ScheduleEntry.leP := by
  intro n
  induction n with
  | zero =>
    intro l hl _
    have : l = [] := List.eq_nil_of_length_eq_zero (by omega)
    subst this
    simp [mergeAdj_nil]
  | succ n ih =>
    intro l hl hp
    rcases l with _ | ⟨a, _ | ⟨b, rest⟩⟩
    · simp [mergeAdj_nil]
    · simp [mergeAdj_single]
    · rw [mergeAdj_cons2]
      rw [List.pairwise_cons] at hp
      obtain ⟨ha1, hp2⟩ := hp
      by_cases hal : a.is_aligned_class b = true
      · rw [if_pos hal]
        apply ih _ (by simp at hl ⊢; omega)
        rw [List.pairwise_cons] at hp2 ⊢
        obtain ⟨hb1, hp3⟩ := hp2
        refine ⟨?_, hp3⟩
        intro y hy
        exact (leP_congr_left (sameFields_bump a) y).mp
          (ha1 y (List.mem_cons_of_mem _ hy))
      · rw [if_neg hal]
        rw [List.pairwise_cons]
        constructor
        · intro x hx
          obtain ⟨y, hy, hsf⟩ := mergeAdj_mem (b :: rest).length (b :: rest) le_rfl x hx
          exact (leP_congr_right hsf a).mp (ha1 y hy)
        · exact ih (b :: rest) (by simp at hl ⊢; omega) hp2

theorem mergeAdj_head : ∀ (n : Nat) (x : ScheduleEntry) (xs : List ScheduleEntry),
    xs.length ≤ n →
    ∃ h t, mergeAdj (x :: xs) = h :: t ∧ sameFields x h := by
  intro n
  induction n with
  | zero =>
    intro x xs hl
    have : xs = [] := List.eq_nil_of_length_eq_zero (by omega)
    subst this
    exact ⟨x, [], mergeAdj_single x, sameFields_refl x⟩
  | succ n ih =>
    intro x xs hl
    rcases xs with _ | ⟨b, rest⟩
    · exact ⟨x, [], mergeAdj_single x, sameFields_refl x⟩
    · rw [mergeAdj_cons2]
      by_cases hal : x.is_aligned_class b = true
      · rw [if_pos hal]
        obtain ⟨h, t, heq, hsf⟩ := ih x.bump rest (by simp at hl ⊢; omega)
        exact ⟨h, t, heq, sameFields_trans (sameFields_bump x) hsf⟩
      · rw [if_neg hal]
        exact ⟨x, _, rfl, sameFields_refl x⟩

theorem mergeAdj_chain : ∀ (n : Nat) (l : List ScheduleEntry), l.length ≤ n →
    List.Chain' (fun a b => a.is_aligned_class b = false) (mergeAdj l) := by
  intro n
  induction n with
  | zero =>
    intro l hl
    have : l = [] := List.eq_nil_of_length_eq_zero (by omega)
    subst this
    simp [mergeAdj_nil]
  | succ n ih =>
    intro l hl
    rcases l with _ | ⟨a, _ | ⟨b, rest⟩⟩
    · simp [mergeAdj_nil]
    · simp [mergeAdj_single]
    · rw [mergeAdj_cons2]
      by_cases hal : a.is_aligned_class b = true
      · rw [if_pos hal]
        exact ih _ (by simp at hl ⊢; omega)
      · rw [if_neg hal]
        rw [List.chain'_cons']
        constructor
        · intro y hy
          obtain ⟨h, t, heq, hsf⟩ := mergeAdj_head rest.length b rest le_rfl
          rw [heq] at hy
          simp at hy
          subst hy
          rw [← aligned_congr_right hsf a]
          exact Bool.eq_false_iff.mpr hal
        · exact ih (b :: rest) (by simp at hl ⊢; omega)

theorem chain_no_aligned {l : List ScheduleEntry}
    (h : List.Chain' (fun a b => a.is_aligned_class b = false) l) :
    ∀ (j : Nat) (a b : ScheduleEntry), l[j]? = some a → l[j+1]? = some b →
      a.is_aligned_class b = false := by
  intro j a b hja hjb
  obtain ⟨hb1, hb2⟩ := List.getElem?_eq_some.mp hjb
  obtain ⟨ha1, ha2⟩ := List.getElem?_eq_some.mp hja
  have hc := List.chain'_iff_get.mp h j (by omega)
  simpa [List.get_eq_getElem, ha2, hb2] using hc

theorem mergeLoop_no_merge : ∀ (fuel : Nat) (l : List ScheduleEntry) (i : Nat),
    (∀ (j : Nat) (a b : ScheduleEntry), l[j]? = some a → l[j+1]? = some b →
      a.is_aligned_class b = false) →
    i + 1 < l.length → l.length - i ≤ fuel → mergeLoop fuel l i = some l := by
  intro fuel
  induction fuel with
  | zero => intro l i _ h1 h2; omega
  | succ f ih =>
    intro l i hno h1 h2
    have hi : i < l.length := by omega
    have ha : l[i]? = some l[i] := List.getElem?_eq_getElem hi
    have hb : l[i+1]? = some l[i+1] := List.getElem?_eq_getElem h1
    have hfalse := hno i _ _ ha hb
    simp only [mergeLoop, ha, hb]
    rw [if_neg (by simp [hfalse])]
    by_cases hg : i + 1 < l.length - 1
    · rw [if_pos hg]
      exact ih l (i+1) hno (by omega) (by omega)
    · rw [if_neg hg]

/-- C8 counterexample: the claim fails as stated: merging two aligned
entries produces a one-element list, and re-running
`merge_list_of_classes` on that output does not return it unchanged but
raises an index fault. -/
theorem claim_C8_counterexample :
    merge_list_of_classes [tA0, tA1] = some [tA0.bump] ∧
    merge_list_of_classes [tA0.bump] = none :=
  ⟨by decide, by decide⟩

/-- C8 (amended): re-running `merge_list_of_classes` on any of its
outputs that has at least two entries returns that output unchanged
(same entries, same order, same durations). -/
theorem claim_C8_merge_idempotent_on_multi :
    ∀ (l out : List ScheduleEntry), merge_list_of_classes l = some out →
      2 ≤ out.length → merge_list_of_classes out = some out := by
  intro l out hm hlen
  have hlenl := length_sortE l
  have hl2 : 2 ≤ l.length := by
    by_contra hlt
    push_neg at hlt
    rw [merge_small_none (by omega)] at hm
    exact Option.noConfusion hm
  have hout : out = mergeAdj (sortE l) := by
    rw [merge_eq_mergeAdj hl2] at hm
    exact (Option.some.inj hm).symm
  have hsorted : (sortE l).Pairwise ScheduleEntry.leP :=
    List.sorted_insertionSort ScheduleEntry.leP l
  have houts : out.Pairwise ScheduleEntry.leP := by
    rw [hout]
    exact mergeAdj_pairwise (sortE l).length _ le_rfl hsorted
  have houtc : List.Chain' (fun a b => a.is_aligned_class b = false) out := by
    rw [hout]
    exact mergeAdj_chain (sortE l).length _ le_rfl
  have hsout : sortE out = out := List.Sorted.insertionSort_eq houts
  show mergeLoop ((sortE out).length + 1) (sortE out) 0 = some out
  rw [hsout]
  exact mergeLoop_no_merge (out.length + 1) out 0 (chain_no_aligned houtc)
    (by omega) (by omega)

/-- Witness for C8 (amended): a two-entry merged output (the entries are
not aligned, slots 0 and 2) on which re-merging is the identity. -/
theorem claim_C8_merge_idempotent_on_multi_witness :
    merge_list_of_classes [tA0, tA2] = some [tA0, tA2] :=
  claim_C8_merge_idempotent_on_multi [tA0, tA2] [tA0, tA2] (by decide) (by decide)

